import Mathlib

/-!
Verification of the duplicate-image finder (`main.py`) and the prune script
(`delete_file.py`) of the Tools repository.

The Python sources are shallowly embedded below:
* bytes are `Nat` values `0..255`, file contents are `List Nat`;
* the filesystem read by `calculate_md5` is a map `String → Option (List Nat)`
  (`none` models every way `open`/`read` can fail: the `except` branch);
* `hashlib.md5` is modelled by its observable semantics: the accumulator state
  is the byte sequence fed so far, and `hexdigest` applies the (fully
  implemented) MD5 function to that sequence;
* console messages that report per-file outcomes (digest failures, prune
  warnings, deletions) are modelled as explicit log lists, since printing is
  the only way the scripts record those events.
-/

set_option autoImplicit false

namespace Tools

/-! ### MD5 (the `hashlib.md5` algorithm), over byte lists -/

/-- `2^32`, the modulus of MD5 word arithmetic. -/
def M32 : Nat := 4294967296

/-- Addition modulo `2^32`. -/
def add32 (x y : Nat) : Nat := (x + y) % M32

/-- Left rotation of a 32-bit word by `n` places. -/
def rotl32 (x n : Nat) : Nat := ((x <<< n) ||| (x >>> (32 - n))) % M32

/-- Bitwise complement of a 32-bit word. -/
def not32 (x : Nat) : Nat := (x % M32) ^^^ 4294967295

/-- MD5 round function F (rounds 0–15). -/
def mF (b c d : Nat) : Nat := (b &&& c) ||| (not32 b &&& d)

/-- MD5 round function G (rounds 16–31). -/
def mG (b c d : Nat) : Nat := (d &&& b) ||| (not32 d &&& c)

/-- MD5 round function H (rounds 32–47). -/
def mH (b c d : Nat) : Nat := b ^^^ c ^^^ d

/-- MD5 round function I (rounds 48–63). -/
def mI (b c d : Nat) : Nat := c ^^^ (b ||| not32 d)

/-- The 64 MD5 sine-derived constants `K[i] = floor(2^32 * abs(sin(i+1)))`. -/
def mdK : List Nat :=
  [0xd76aa478, 0xe8c7b756, 0x242070db, 0xc1bdceee,
   0xf57c0faf, 0x4787c62a, 0xa8304613, 0xfd469501,
   0x698098d8, 0x8b44f7af, 0xffff5bb1, 0x895cd7be,
   0x6b901122, 0xfd987193, 0xa679438e, 0x49b40821,
   0xf61e2562, 0xc040b340, 0x265e5a51, 0xe9b6c7aa,
   0xd62f105d, 0x02441453, 0xd8a1e681, 0xe7d3fbc8,
   0x21e1cde6, 0xc33707d6, 0xf4d50d87, 0x455a14ed,
   0xa9e3e905, 0xfcefa3f8, 0x676f02d9, 0x8d2a4c8a,
   0xfffa3942, 0x8771f681, 0x6d9d6122, 0xfde5380c,
   0xa4beea44, 0x4bdecfa9, 0xf6bb4b60, 0xbebfbc70,
   0x289b7ec6, 0xeaa127fa, 0xd4ef3085, 0x04881d05,
   0xd9d4d039, 0xe6db99e5, 0x1fa27cf8, 0xc4ac5665,
   0xf4292244, 0x432aff97, 0xab9423a7, 0xfc93a039,
   0x655b59c3, 0x8f0ccc92, 0xffeff47d, 0x85845dd1,
   0x6fa87e4f, 0xfe2ce6e0, 0xa3014314, 0x4e0811a1,
   0xf7537e82, 0xbd3af235, 0x2ad7d2bb, 0xeb86d391]

/-- The 64 MD5 per-round left-rotation amounts. -/
def mdS : List Nat :=
  [7, 12, 17, 22, 7, 12, 17, 22, 7, 12, 17, 22, 7, 12, 17, 22,
   5,  9, 14, 20, 5,  9, 14, 20, 5,  9, 14, 20, 5,  9, 14, 20,
   4, 11, 16, 23, 4, 11, 16, 23, 4, 11, 16, 23, 4, 11, 16, 23,
   6, 10, 15, 21, 6, 10, 15, 21, 6, 10, 15, 21, 6, 10, 15, 21]

/-- The four 32-bit MD5 working registers. -/
structure MD5Regs where
  a : Nat
  b : Nat
  c : Nat
  d : Nat
deriving Repr, DecidableEq

/-- The `j`-th little-endian 32-bit word of a 64-byte block. -/
def leWord (block : List Nat) (j : Nat) : Nat :=
  block.getD (4 * j) 0 + 256 * block.getD (4 * j + 1) 0 +
    65536 * block.getD (4 * j + 2) 0 + 16777216 * block.getD (4 * j + 3) 0

/-- One of the 64 MD5 rounds: `X` gives the message words of the block. -/
def md5round (X : Nat → Nat) (r : MD5Regs) (i : Nat) : MD5Regs :=
  let f :=
    if i < 16 then mF r.b r.c r.d
    else if i < 32 then mG r.b r.c r.d
    else if i < 48 then mH r.b r.c r.d
    else mI r.b r.c r.d
  let g :=
    if i < 16 then i
    else if i < 32 then (5 * i + 1) % 16
    else if i < 48 then (3 * i + 5) % 16
    else (7 * i) % 16
  let tmp := add32 (add32 (add32 r.a f) (mdK.getD i 0)) (X g)
  { a := r.d, b := add32 r.b (rotl32 tmp (mdS.getD i 0)), c := r.b, d := r.c }

/-- Process one 64-byte block: run the 64 rounds, then add into the registers. -/
def md5block (r : MD5Regs) (block : List Nat) : MD5Regs :=
  let r2 := (List.range 64).foldl (md5round (leWord block)) r
  { a := add32 r.a r2.a, b := add32 r.b r2.b, c := add32 r.c r2.c, d := add32 r.d r2.d }

/-- MD5 padding: a `0x80` byte, zeros to 56 mod 64, then the 64-bit
little-endian bit length. -/
def md5pad (msg : List Nat) : List Nat :=
  let len := msg.length
  let zeros := (119 - len % 64) % 64
  msg ++ [128] ++ List.replicate zeros 0 ++
    (List.range 8).map (fun i => ((8 * len) >>> (8 * i)) % 256)

/-- Split a byte list into successive 64-byte blocks. -/
def chunks64 (bs : List Nat) : List (List Nat) :=
  if h : bs = [] then [] else bs.take 64 :: chunks64 (bs.drop 64)
termination_by bs.length
decreasing_by
  simp only [List.length_drop]
  have : 0 < bs.length := List.length_pos.mpr h
  omega

/-- The MD5 register state after absorbing a whole (padded) message. -/
def md5regs (msg : List Nat) : MD5Regs :=
  (chunks64 (md5pad msg)).foldl md5block
    { a := 0x67452301, b := 0xefcdab89, c := 0x98badcfe, d := 0x10325476 }

/-- The little-endian bytes of one output register. -/
def regBytes (x : Nat) : List Nat :=
  [x % 256, (x >>> 8) % 256, (x >>> 16) % 256, (x >>> 24) % 256]

/-- One lowercase hexadecimal digit. -/
def hexDigit (n : Nat) : Char :=
  if n < 10 then Char.ofNat (48 + n) else Char.ofNat (87 + n)

/-- Two lowercase hex digits of one byte. -/
def byteHex (b : Nat) : List Char := [hexDigit (b / 16 % 16), hexDigit (b % 16)]

/-- The lowercase-hex MD5 digest of a byte list (what
`hashlib.md5(msg).hexdigest()` returns). -/
def md5_hex (msg : List Nat) : String :=
  let r := md5regs msg
  String.mk ((regBytes r.a ++ regBytes r.b ++ regBytes r.c ++ regBytes r.d).flatMap byteHex)

/-! ### The incremental `hashlib.md5` interface

`hashlib.md5()` returns an accumulator; `update` feeds bytes, `hexdigest`
returns the digest of everything fed so far.  The observable state of the
accumulator is exactly the byte sequence fed so far, so that is the model. -/

/-- `hashlib.md5()`: fresh accumulator, nothing fed yet. -/
def md5_init : List Nat := []

/-- `hash_md5.update(chunk)`: feed one more chunk. -/
def md5_update (st chunk : List Nat) : List Nat := st ++ chunk

/-- `hash_md5.hexdigest()`: MD5 of all bytes fed, as lowercase hex. -/
def md5_hexdigest (st : List Nat) : String := md5_hex st

/-! ### `DuplicateImageFinder.calculate_md5` (main.py lines 22–41) -/

/-- The filesystem seen by `calculate_md5`: each path either has readable
byte content, or `none` (missing / unreadable, i.e. the `except` branch). -/
abbrev FS := String → Option (List Nat)

/-- `iter(lambda: f.read(4096), b"")`: the successive 4096-byte chunks of a
file's content (the last chunk may be shorter; an empty file yields none). -/
def chunks4096 (bs : List Nat) : List (List Nat) :=
  if h : bs = [] then [] else bs.take 4096 :: chunks4096 (bs.drop 4096)
termination_by bs.length
decreasing_by
  simp only [List.length_drop]
  have : 0 < bs.length := List.length_pos.mpr h
  omega

/-- `calculate_md5(file_path)`: feed the 4096-byte chunks of the file into an
MD5 accumulator and return `(hexdigest, file_path)`, or `(None, file_path)`
when reading fails. -/
def calculate_md5 (fs : FS) (file_path : String) : Option String × String :=
  match fs file_path with
  | none => (none, file_path)
  | some content =>
      (some (md5_hexdigest (List.foldl md5_update md5_init (chunks4096 content))),
       file_path)

/-! ### `DuplicateImageFinder.process_images` (main.py lines 82–111)

`process_images` submits one `calculate_md5` task per input path to a
`ThreadPoolExecutor` and consumes the futures with `as_completed`, so the
results arrive in an arbitrary permutation of the submission list.  The
embedding takes that completion order as an explicit argument; theorems
quantify over every permutation.  `max_workers` only bounds parallelism, so
it selects which permutation occurs but never changes any result value. -/

/-- The results the `as_completed` loop receives, in completion order.
`max_workers` is the pool's concurrency bound; it does not enter any
per-path computation. -/
def worker_pool_run (fs : FS) (max_workers : Nat) (completion : List String) :
    List (Option String × String) :=
  completion.map (calculate_md5 fs)

/-- The aggregation state built by the `as_completed` loop:
`md5_dict` is the insertion-ordered fingerprint → paths map,
`failed` collects the paths whose digest failed (each such path is reported
by the `print` in `calculate_md5`'s `except` branch), and `completed` is the
loop's counter. -/
structure AggState where
  md5_dict : List (String × List String)
  failed : List String
  completed : Nat
deriving Repr, DecidableEq

/-- `self.md5_dict[md5_value].append(file_path)` on a `defaultdict(list)`:
append to the existing key's list, or create the key at the end. -/
def dictAppend (d : List (String × List String)) (k v : String) :
    List (String × List String) :=
  match d with
  | [] => [(k, [v])]
  | (k', vs) :: rest =>
      if k' = k then (k', vs ++ [v]) :: rest else (k', vs) :: dictAppend rest k v

/-- One iteration of the `as_completed` loop: unpack `(md5_value, file_path)`,
append to `md5_dict` when the digest succeeded (recording the failure
otherwise), and advance `completed`. -/
def agg_step (fs : FS) (s : AggState) (p : String) : AggState :=
  let r := calculate_md5 fs p
  match r.1 with
  | some md5_value =>
      { s with md5_dict := dictAppend s.md5_dict md5_value r.2,
               completed := s.completed + 1 }
  | none =>
      { s with failed := s.failed ++ [r.2], completed := s.completed + 1 }

/-- `process_images`, run over a given completion order. -/
def process_images (fs : FS) (completion : List String) : AggState :=
  completion.foldl (agg_step fs) { md5_dict := [], failed := [], completed := 0 }

/-- Total number of paths stored across all group lists of the map. -/
def totalPaths (d : List (String × List String)) : Nat :=
  (d.map (fun kv => kv.2.length)).sum

/-! ### `DuplicateImageFinder.find_duplicates` (main.py lines 113–125) -/

/-- `find_duplicates`: the sub-map of entries whose path list has length > 1
(dict comprehension, so insertion order and the lists are unchanged). -/
def find_duplicates (md5_dict : List (String × List String)) :
    List (String × List String) :=
  md5_dict.filter (fun kv => decide (1 < kv.2.length))

/-- `len(duplicates)`, the count `print_results` reports (main.py line 160). -/
def found_duplicates_count (md5_dict : List (String × List String)) : Nat :=
  (find_duplicates md5_dict).length

/-! ### The prune script (delete_file.py)

The script walks `data["duplicates"].items()`; each entry's value is either a
JSON list of path strings (`some l`) or some non-list value (`none`, which the
`isinstance` test rejects; a falsy non-list value is rejected the same way by
`not file_list`).  The disk is the list of currently existing files
(`os.path.exists` is membership, `os.remove` removes every trace of the path);
`removeFails p = true` models `os.remove(p)` raising `OSError`.  The messages
the script prints per entry/per path are collected in `log`. -/

/-- One console message of the prune script. -/
inductive LogEvent where
  /-- `警告: MD5 '{md5_hash}' 的文件列表无效或为空，跳过。` -/
  | invalidList (md5_hash : String)
  /-- `已删除: {file}` -/
  | deleted (path : String)
  /-- `警告: 文件不存在，无法删除: {file}` -/
  | missingFile (path : String)
  /-- `错误：删除文件 {file} 时发生操作系统错误` -/
  | osError (path : String)
deriving Repr, DecidableEq

/-- The script's state while processing the report. -/
structure PruneState where
  disk : List String
  kept_files_data : List (String × List String)
  files_deleted_count : Nat
  processed_md5_count : Nat
  log : List LogEvent
deriving Repr, DecidableEq

/-- `kept_files_data[md5_hash] = [...]` on a plain `dict`: overwrite the
existing key's value, or add the key at the end. -/
def dictSet (d : List (String × List String)) (k : String) (v : List String) :
    List (String × List String) :=
  match d with
  | [] => [(k, v)]
  | (k', w) :: rest =>
      if k' = k then (k, v) :: rest else (k', w) :: dictSet rest k v

/-- The body of `for file_to_delete in file_list[1:]`: delete the file if it
exists (an `OSError` is caught and logged), warn if it is missing; in every
case processing continues. -/
def delete_step (removeFails : String → Bool) (st : PruneState)
    (file_to_delete : String) : PruneState :=
  if file_to_delete ∈ st.disk then
    if removeFails file_to_delete then
      { st with log := st.log ++ [LogEvent.osError file_to_delete] }
    else
      { st with disk := st.disk.filter (fun q => q != file_to_delete),
                files_deleted_count := st.files_deleted_count + 1,
                log := st.log ++ [LogEvent.deleted file_to_delete] }
  else
    { st with log := st.log ++ [LogEvent.missingFile file_to_delete] }

/-- The body of `for md5_hash, file_list in data["duplicates"].items()`:
count the entry, skip it (with a warning) when its list is invalid or empty,
otherwise keep `file_list[0]` and attempt deletion of `file_list[1:]`. -/
def entry_step (removeFails : String → Bool) (st : PruneState)
    (e : String × Option (List String)) : PruneState :=
  let st1 := { st with processed_md5_count := st.processed_md5_count + 1 }
  match e.2 with
  | none => { st1 with log := st1.log ++ [LogEvent.invalidList e.1] }
  | some [] => { st1 with log := st1.log ++ [LogEvent.invalidList e.1] }
  | some (first_file_path :: rest) =>
      let st2 := { st1 with
        kept_files_data := dictSet st1.kept_files_data e.1 [first_file_path] }
      rest.foldl (delete_step removeFails) st2

/-- The whole prune pass over the report's `duplicates` entries, starting
from a given disk. -/
def prune_run (removeFails : String → Bool) (disk0 : List String)
    (entries : List (String × Option (List String))) : PruneState :=
  entries.foldl (entry_step removeFails)
    { disk := disk0, kept_files_data := [], files_deleted_count := 0,
      processed_md5_count := 0, log := [] }

/-- `new_json_structure` (delete_file.py lines 55–58): the updated report,
`found_duplicates_count = len(kept_files_data)` plus the kept mapping. -/
def new_json_structure (st : PruneState) : Nat × List (String × List String) :=
  (st.kept_files_data.length, st.kept_files_data)

/-- The paths of an entry that the script passes to the deletion loop:
`file_list[1:]` of a valid entry, nothing otherwise. -/
def tailOf (e : String × Option (List String)) : List String :=
  match e.2 with
  | some (_ :: rest) => rest
  | _ => []

/-- All paths any entry passes to the deletion loop. -/
def tailPaths (entries : List (String × Option (List String))) : List String :=
  entries.flatMap tailOf

/-- Whether an entry survives the validity check (`some (_ :: _)`). -/
def validEntry (e : String × Option (List String)) : Bool :=
  match e.2 with
  | some (_ :: _) => true
  | _ => false

/-- What a valid entry contributes to the updated report: its key and the
single retained path `file_list[0]`. -/
def keepOf (e : String × Option (List String)) : Option (String × List String) :=
  match e.2 with
  | some (a :: _) => some (e.1, [a])
  | _ => none

/-- The evolution of `kept_files_data` alone across one entry. -/
def keptStep (k : List (String × List String))
    (e : String × Option (List String)) : List (String × List String) :=
  match e.2 with
  | some (a :: _) => dictSet k e.1 [a]
  | _ => k

/-! ### Concrete fixtures used to instantiate the theorems -/

/-- A filesystem with two readable files of identical content; every other
path is unreadable. -/
def exFS : FS := fun p =>
  if p = "a.jpg" ∨ p = "c.jpg" then some [1, 2, 3] else none

/-- A deletion oracle under which only `locked.jpg` raises `OSError`. -/
def rfLocked : String → Bool := fun p => p == "locked.jpg"

/-- A deletion oracle under which no deletion ever fails. -/
def rfNone : String → Bool := fun _ => false

/-- A prune state whose disk holds only `locked.jpg`. -/
def stLocked : PruneState :=
  { disk := ["locked.jpg"], kept_files_data := [], files_deleted_count := 0,
    processed_md5_count := 0, log := [] }

/-- Report entries with one valid and one malformed entry. -/
def entriesEx : List (String × Option (List String)) :=
  [("h1", some ["a.jpg", "gone.jpg"]), ("h2", none)]

/-- The fingerprint `calculate_md5` assigns to the content `[1, 2, 3]`. -/
def hexA : String :=
  md5_hexdigest (List.foldl md5_update md5_init (chunks4096 [1, 2, 3]))

/-! ## Theorems -/

/-- Feeding the chunks of `bs` one by one into the accumulator feeds exactly
`bs`: the chunked read loop loses and adds nothing. -/
theorem foldl_md5_update_chunks4096 (s bs : List Nat) :
    List.foldl md5_update s (chunks4096 bs) = s ++ bs := by
  by_cases hbs : bs = []
  · subst hbs; simp [chunks4096]
  · rw [chunks4096, dif_neg hbs, List.foldl_cons,
      foldl_md5_update_chunks4096 (md5_update s (bs.take 4096)) (bs.drop 4096)]
    simp [md5_update]
termination_by bs.length
decreasing_by
  simp only [List.length_drop]
  have : 0 < bs.length := List.length_pos.mpr hbs
  omega

/-- C1: two files with identical byte content get identical fingerprints:
`calculate_md5` is a function of the file's content alone, and the chunked
incremental digest equals the MD5 of the whole content (as lowercase hex). -/
theorem calculate_md5_content_determined (fs : FS) (p1 p2 : String)
    (c : List Nat) (h1 : fs p1 = some c) (h2 : fs p2 = some c) :
    (calculate_md5 fs p1).1 = (calculate_md5 fs p2).1 ∧
      (calculate_md5 fs p1).1 = some (md5_hex c) := by
  simp [calculate_md5, h1, h2, md5_hexdigest, md5_init,
    foldl_md5_update_chunks4096]

/-- C1 witness: `a.jpg` and `c.jpg` have the same content in `exFS`, so their
fingerprints coincide and equal the whole-content digest. -/
theorem calculate_md5_content_determined_witness :
    exFS "a.jpg" = some [1, 2, 3] ∧ exFS "c.jpg" = some [1, 2, 3] ∧
      ((calculate_md5 exFS "a.jpg").1 = (calculate_md5 exFS "c.jpg").1 ∧
        (calculate_md5 exFS "a.jpg").1 = some (md5_hex [1, 2, 3])) :=
  ⟨by decide, by decide,
    calculate_md5_content_determined exFS "a.jpg" "c.jpg" [1, 2, 3]
      (by decide) (by decide)⟩

/-- A digest result is always tagged with the path it was computed for. -/
theorem calculate_md5_snd (fs : FS) (p : String) : (calculate_md5 fs p).2 = p := by
  cases h : fs p <;> simp [calculate_md5, h]

/-- C2: for any concurrency settings ≥ 1 and any two completion orders of the
same input list, the worker pool yields one `DigestResult` per input path
(each path `p` accounts for exactly its number of occurrences, so nothing is
dropped or duplicated), and the two result sequences are permutations of one
another: the result multiset does not depend on the concurrency setting. -/
theorem worker_pool_one_result_per_path (fs : FS) (paths : List String)
    (mw1 mw2 : Nat) (c1 c2 : List String) (p : String)
    (hmw1 : 1 ≤ mw1) (hmw2 : 1 ≤ mw2)
    (h1 : c1.Perm paths) (h2 : c2.Perm paths) :
    (worker_pool_run fs mw1 c1).Perm (worker_pool_run fs mw2 c2) ∧
      ((worker_pool_run fs mw1 c1).filter (fun r => r.2 == p)).length
        = paths.count p := by
  constructor
  · exact (h1.map (calculate_md5 fs)).trans (h2.map (calculate_md5 fs)).symm
  · rw [← List.countP_eq_length_filter, worker_pool_run, List.countP_map]
    have hcong :
        List.countP ((fun r : Option String × String => r.2 == p) ∘
            calculate_md5 fs) c1
          = List.countP (fun q => q == p) c1 := by
      apply List.countP_congr
      intro q _
      simp [Function.comp, calculate_md5_snd]
    rw [hcong, h1.countP_eq, List.count]

/-- C2 witness: three paths digested under concurrency 1 and 8, in two
different completion orders, give permuted result lists and exactly one
result for `a.jpg`. -/
theorem worker_pool_one_result_per_path_witness :
    (worker_pool_run exFS 1 ["c.jpg", "a.jpg", "bad"]).Perm
        (worker_pool_run exFS 8 ["bad", "c.jpg", "a.jpg"]) ∧
      ((worker_pool_run exFS 1 ["c.jpg", "a.jpg", "bad"]).filter
          (fun r => r.2 == "a.jpg")).length
        = ["a.jpg", "bad", "c.jpg"].count "a.jpg" :=
  worker_pool_one_result_per_path exFS ["a.jpg", "bad", "c.jpg"] 1 8
    ["c.jpg", "a.jpg", "bad"] ["bad", "c.jpg", "a.jpg"] "a.jpg"
    (by decide) (by decide) (by decide) (by decide)

/-- `dictAppend` grows the total number of stored paths by exactly one. -/
theorem totalPaths_dictAppend (d : List (String × List String)) (k v : String) :
    totalPaths (dictAppend d k v) = totalPaths d + 1 := by
  induction d with
  | nil => simp [dictAppend, totalPaths]
  | cons hd rest ih =>
    obtain ⟨k', vs⟩ := hd
    by_cases h : k' = k
    · simp [dictAppend, h, totalPaths]
      omega
    · simp only [totalPaths, List.map_cons, List.sum_cons] at ih ⊢
      simp [dictAppend, h]
      omega

/-- Each aggregation step stores its path in exactly one of the two places:
the group map or the failure list. -/
theorem agg_measure (fs : FS) (completion : List String) :
    ∀ s : AggState,
      totalPaths (List.foldl (agg_step fs) s completion).md5_dict
          + (List.foldl (agg_step fs) s completion).failed.length
        = totalPaths s.md5_dict + s.failed.length + completion.length := by
  induction completion with
  | nil => intro s; simp
  | cons p rest ih =>
    intro s
    rw [List.foldl_cons, ih]
    cases h : (calculate_md5 fs p).1 <;>
      simp [agg_step, h, totalPaths_dictAppend] <;> omega

/-- C3: after aggregation, the number of paths stored across all group lists
plus the number of failed digests equals the number of input files, whatever
completion order the pool produced. -/
theorem aggregation_conservation (fs : FS) (image_files completion : List String)
    (h : completion.Perm image_files) :
    totalPaths (process_images fs completion).md5_dict
      + (process_images fs completion).failed.length = image_files.length := by
  have hm := agg_measure fs completion
    { md5_dict := [], failed := [], completed := 0 }
  simpa [process_images, totalPaths, h.length_eq] using hm

/-- C3 witness: two readable files plus one failing file, processed in a
shuffled completion order, conserve the count `2 + 1 = 3`. -/
theorem aggregation_conservation_witness :
    (["c.jpg", "bad", "a.jpg"].Perm ["a.jpg", "bad", "c.jpg"]) ∧
      totalPaths (process_images exFS ["c.jpg", "bad", "a.jpg"]).md5_dict
        + (process_images exFS ["c.jpg", "bad", "a.jpg"]).failed.length = 3 := by
  refine ⟨by decide, ?_⟩
  have h := aggregation_conservation exFS ["a.jpg", "bad", "c.jpg"]
    ["c.jpg", "bad", "a.jpg"] (by decide)
  simpa using h

/-- The failure list after aggregation is the input's failed paths, in
completion order, appended to whatever was there before. -/
theorem agg_failed (fs : FS) (completion : List String) :
    ∀ s : AggState,
      (List.foldl (agg_step fs) s completion).failed
        = s.failed ++ completion.filter (fun q => ((calculate_md5 fs q).1).isNone) := by
  induction completion with
  | nil => intro s; simp
  | cons p rest ih =>
    intro s
    rw [List.foldl_cons, ih]
    cases h : (calculate_md5 fs p).1 <;>
      simp [agg_step, h, List.filter_cons, calculate_md5_snd]

/-- The loop counter counts every consumed result. -/
theorem agg_completed (fs : FS) (completion : List String) :
    ∀ s : AggState,
      (List.foldl (agg_step fs) s completion).completed
        = s.completed + completion.length := by
  induction completion with
  | nil => intro s; simp
  | cons p rest ih =>
    intro s
    rw [List.foldl_cons, ih]
    cases h : (calculate_md5 fs p).1 <;> simp [agg_step, h] <;> omega

/-- A path found inside `dictAppend d k v` is either the appended path or was
already in the map. -/
theorem dictAppend_mem_paths (k v : String) :
    ∀ (d : List (String × List String)) (kv : String × List String) (q : String),
      kv ∈ dictAppend d k v → q ∈ kv.2 → q = v ∨ ∃ kv' ∈ d, q ∈ kv'.2 := by
  intro d
  induction d with
  | nil =>
    intro kv q hkv hq
    simp [dictAppend] at hkv
    subst hkv
    simp at hq
    exact Or.inl hq
  | cons hd rest ih =>
    intro kv q hkv hq
    obtain ⟨k', vs⟩ := hd
    by_cases h : k' = k
    · simp [dictAppend, h] at hkv
      rcases hkv with hkv | hkv
      · subst hkv
        simp at hq
        rcases hq with hq | hq
        · exact Or.inr ⟨(k', vs), by simp, hq⟩
        · exact Or.inl hq
      · exact Or.inr ⟨kv, by simp [hkv], hq⟩
    · simp [dictAppend, h] at hkv
      rcases hkv with hkv | hkv
      · subst hkv
        exact Or.inr ⟨(k', vs), by simp, hq⟩
      · rcases ih kv q hkv hq with h1 | ⟨kv', hkv', hq'⟩
        · exact Or.inl h1
        · exact Or.inr ⟨kv', by simp [hkv'], hq'⟩

/-- Every path stored in the group map had a successful digest. -/
theorem agg_dict_paths (fs : FS) (completion : List String) :
    ∀ s : AggState,
      (∀ kv ∈ s.md5_dict, ∀ q ∈ kv.2, ((calculate_md5 fs q).1).isSome) →
      ∀ kv ∈ (List.foldl (agg_step fs) s completion).md5_dict, ∀ q ∈ kv.2,
        ((calculate_md5 fs q).1).isSome := by
  induction completion with
  | nil => intro s hs; simpa using hs
  | cons p rest ih =>
    intro s hs
    rw [List.foldl_cons]
    apply ih
    cases h : (calculate_md5 fs p).1 with
    | none => simpa [agg_step, h] using hs
    | some m =>
      intro kv hkv q hq
      simp only [agg_step, h] at hkv
      rcases dictAppend_mem_paths m ((calculate_md5 fs p).2) s.md5_dict kv q hkv hq with
        h1 | ⟨kv', hkv', hq'⟩
      · rw [h1, calculate_md5_snd, h]; rfl
      · exact hs kv' hkv' q hq'

/-- C4: after the input is exhausted the aggregation state records exactly
the failed paths (in completion order) in its failure list, its counter
accounts for every input, and no failed path is stored in the group map. -/
theorem failures_recorded (fs : FS) (completion : List String) (p : String)
    (kv : String × List String) :
    (process_images fs completion).failed
        = completion.filter (fun q => ((calculate_md5 fs q).1).isNone)
      ∧ (process_images fs completion).completed = completion.length
      ∧ ((calculate_md5 fs p).1 = none →
          kv ∈ (process_images fs completion).md5_dict → p ∉ kv.2) := by
  refine ⟨?_, ?_, ?_⟩
  · simpa [process_images] using
      agg_failed fs completion { md5_dict := [], failed := [], completed := 0 }
  · simpa [process_images] using
      agg_completed fs completion { md5_dict := [], failed := [], completed := 0 }
  · intro hnone hkv hq
    have := agg_dict_paths fs completion
      { md5_dict := [], failed := [], completed := 0 } (by simp) kv hkv p hq
    rw [hnone] at this
    simp at this

/-- C4 witness: with one failing path and one readable path, the failure list
is exactly `["bad.jpg"]`, the counter is 2, and the failed path is not in the
group of `a.jpg`. -/
theorem failures_recorded_witness :
    (process_images exFS ["bad.jpg", "a.jpg"]).failed
        = ["bad.jpg", "a.jpg"].filter (fun q => ((calculate_md5 exFS q).1).isNone)
      ∧ (process_images exFS ["bad.jpg", "a.jpg"]).completed = 2
      ∧ "bad.jpg" ∉ (hexA, ["a.jpg"]).2 := by
  have h := failures_recorded exFS ["bad.jpg", "a.jpg"] "bad.jpg" (hexA, ["a.jpg"])
  have hmem : (hexA, ["a.jpg"]) ∈ (process_images exFS ["bad.jpg", "a.jpg"]).md5_dict := by
    simp [process_images, agg_step, calculate_md5, exFS, dictAppend, hexA]
  refine ⟨h.1, by rw [h.2.1]; rfl, h.2.2 (by decide) hmem⟩

/-- C5: `find_duplicates` returns exactly the entries whose path list has
length > 1 — a sub-sequence of the map, so keys and lists are unchanged —
and the reported `found_duplicates_count` is the number of such entries. -/
theorem find_duplicates_spec (d : List (String × List String))
    (kv : String × List String) :
    (kv ∈ find_duplicates d ↔ kv ∈ d ∧ 1 < kv.2.length)
      ∧ (find_duplicates d).Sublist d
      ∧ found_duplicates_count d
        = d.countP (fun kv => decide (1 < kv.2.length)) := by
  refine ⟨?_, List.filter_sublist d, ?_⟩
  · simp [find_duplicates]
  · simp [found_duplicates_count, find_duplicates, List.countP_eq_length_filter]

/-- `delete_step` never touches `kept_files_data`. -/
theorem delete_step_kept (rf : String → Bool) (st : PruneState) (p : String) :
    (delete_step rf st p).kept_files_data = st.kept_files_data := by
  simp only [delete_step]
  split <;> (try split) <;> rfl

/-- The deletion loop never touches `kept_files_data`. -/
theorem dfold_kept (rf : String → Bool) (l : List String) :
    ∀ st : PruneState,
      (List.foldl (delete_step rf) st l).kept_files_data = st.kept_files_data := by
  induction l with
  | nil => intro st; rfl
  | cons p rest ih => intro st; rw [List.foldl_cons, ih, delete_step_kept]

/-- Across one entry, `kept_files_data` evolves exactly by `keptStep`. -/
theorem entry_step_kept (rf : String → Bool) (st : PruneState)
    (e : String × Option (List String)) :
    (entry_step rf st e).kept_files_data = keptStep st.kept_files_data e := by
  obtain ⟨m, v⟩ := e
  match v with
  | none => rfl
  | some [] => rfl
  | some (a :: rest) => simp [entry_step, keptStep, dfold_kept]

/-- Across the whole run, `kept_files_data` evolves by folding `keptStep`:
it depends only on the report's entries, not on the disk or on deletion
outcomes. -/
theorem efold_kept (rf : String → Bool)
    (entries : List (String × Option (List String))) :
    ∀ st : PruneState,
      (List.foldl (entry_step rf) st entries).kept_files_data
        = List.foldl keptStep st.kept_files_data entries := by
  induction entries with
  | nil => intro st; rfl
  | cons e rest ih => intro st; rw [List.foldl_cons, ih, entry_step_kept]; rfl

/-- Setting a key absent from the dict appends the pair at the end. -/
theorem dictSet_fresh (k : String) (v : List String) :
    ∀ d : List (String × List String),
      k ∉ d.map Prod.fst → dictSet d k v = d ++ [(k, v)] := by
  intro d
  induction d with
  | nil => intro _; rfl
  | cons hd rest ih =>
    intro hk
    obtain ⟨k', w⟩ := hd
    rw [List.map_cons, List.mem_cons, not_or] at hk
    rw [dictSet, if_neg (Ne.symm hk.1), ih hk.2]
    rfl

/-- Folding `keptStep` over entries with pairwise-distinct fresh keys appends
one `(key, [first])` pair per valid entry, in order. -/
theorem keptStep_run :
    ∀ (entries : List (String × Option (List String)))
      (acc : List (String × List String)),
      (∀ x ∈ acc.map Prod.fst, x ∉ entries.map Prod.fst) →
      (entries.map Prod.fst).Nodup →
      List.foldl keptStep acc entries = acc ++ entries.filterMap keepOf := by
  intro entries
  induction entries with
  | nil => intro acc _ _; simp
  | cons e rest ih =>
    intro acc hfresh hnodup
    obtain ⟨m, v⟩ := e
    simp only [List.map_cons, List.nodup_cons] at hnodup
    match v with
    | none =>
      rw [List.foldl_cons]
      show List.foldl keptStep acc rest = _
      rw [ih acc (fun x hx => by
        have := hfresh x hx
        simp at this
        simpa using this.2) hnodup.2]
      simp [keepOf]
    | some [] =>
      rw [List.foldl_cons]
      show List.foldl keptStep acc rest = _
      rw [ih acc (fun x hx => by
        have := hfresh x hx
        simp at this
        simpa using this.2) hnodup.2]
      simp [keepOf]
    | some (a :: l) =>
      rw [List.foldl_cons]
      show List.foldl keptStep (keptStep acc (m, some (a :: l))) rest = _
      have hm : m ∉ acc.map Prod.fst := by
        intro hmem
        have := hfresh m hmem
        simp at this
      rw [show keptStep acc (m, some (a :: l)) = acc ++ [(m, [a])] from by
        simp [keptStep, dictSet_fresh m [a] acc hm]]
      rw [ih (acc ++ [(m, [a])]) (fun x hx => by
        simp at hx
        rcases hx with hx | hx
        · have := hfresh x (by simpa using hx)
          simp at this
          simpa using this.2
        · rw [hx]; exact hnodup.1) hnodup.2]
      simp [keepOf]

/-- A valid entry contributes a kept pair, an invalid one contributes
nothing, so the kept pairs are counted by `validEntry`. -/
theorem filterMap_keepOf_length :
    ∀ entries : List (String × Option (List String)),
      (entries.filterMap keepOf).length = entries.countP validEntry := by
  intro entries
  induction entries with
  | nil => rfl
  | cons e rest ih =>
    obtain ⟨m, v⟩ := e
    match v with
    | none => simpa [keepOf, validEntry, List.countP_cons] using ih
    | some [] => simpa [keepOf, validEntry, List.countP_cons] using ih
    | some (a :: l) => simpa [keepOf, validEntry, List.countP_cons] using ih

/-- C6: for a persisted report (keys are unique in a JSON object), the
updated report keeps exactly `[paths[0]]` for each originally-valid entry,
in order, and its `found_duplicates_count` is the number of valid entries;
invalid entries appear in neither. -/
theorem prune_report_retains_first (rf : String → Bool) (disk0 : List String)
    (entries : List (String × Option (List String)))
    (hk : (entries.map Prod.fst).Nodup) :
    (new_json_structure (prune_run rf disk0 entries)).2
        = entries.filterMap keepOf
      ∧ (new_json_structure (prune_run rf disk0 entries)).1
        = entries.countP validEntry := by
  have h1 : (prune_run rf disk0 entries).kept_files_data
      = entries.filterMap keepOf := by
    rw [prune_run, efold_kept, keptStep_run entries [] (by simp) hk]
    rfl
  exact ⟨h1, by simp [new_json_structure, h1, filterMap_keepOf_length]⟩

/-- C6 witness: a report with two valid, one empty and one malformed entry
prunes to the two retained heads and count 2. -/
theorem prune_report_retains_first_witness :
    ((["h1", "h2", "h3", "h4"] : List String).Nodup) ∧
      (new_json_structure (prune_run rfNone ["a.jpg", "b.jpg", "c.jpg"]
          [("h1", some ["a.jpg", "b.jpg"]), ("h2", some []), ("h3", none),
            ("h4", some ["c.jpg"])])).2
        = [("h1", ["a.jpg"]), ("h4", ["c.jpg"])]
      ∧ (new_json_structure (prune_run rfNone ["a.jpg", "b.jpg", "c.jpg"]
          [("h1", some ["a.jpg", "b.jpg"]), ("h2", some []), ("h3", none),
            ("h4", some ["c.jpg"])])).1 = 2 := by
  have h := prune_report_retains_first rfNone ["a.jpg", "b.jpg", "c.jpg"]
    [("h1", some ["a.jpg", "b.jpg"]), ("h2", some []), ("h3", none),
      ("h4", some ["c.jpg"])] (by decide)
  exact ⟨by decide, by rw [h.1]; rfl, by rw [h.2]; rfl⟩

/-- C7 counterexample: the claim says a skipped entry "does not advance
counts", but `processed_md5_count += 1` runs before the validity check, so a
report consisting of one empty-list entry ends with the processed-groups
counter at 1, not 0. -/
theorem prune_invalid_entry_counterexample :
    ¬ (prune_run rfNone [] [("d41d8cd9", some [])]).processed_md5_count = 0 := by
  decide

/-- C7 (amended): an entry whose path list is empty or not a list is skipped
with a recorded warning, deletes nothing, leaves the kept mapping, the
deletion count and the disk unchanged — so it is excluded from the updated
report — but the processed-groups counter is still advanced by one. -/
theorem prune_invalid_entry_skipped (rf : String → Bool) (st : PruneState)
    (m : String) (v : Option (List String)) (hv : v = none ∨ v = some []) :
    entry_step rf st (m, v)
      = { st with processed_md5_count := st.processed_md5_count + 1,
                  log := st.log ++ [LogEvent.invalidList m] } := by
  rcases hv with h | h <;> subst h <;> rfl

/-- C7 witness: an empty-list entry leaves disk, kept mapping and deletion
count untouched, logs the warning, and advances the processed counter. -/
theorem prune_invalid_entry_skipped_witness :
    ((some [] : Option (List String)) = none
        ∨ (some [] : Option (List String)) = some [])
      ∧ entry_step rfNone
          { disk := ["x.jpg"], kept_files_data := [], files_deleted_count := 0,
            processed_md5_count := 0, log := [] } ("m", some [])
        = { disk := ["x.jpg"], kept_files_data := [], files_deleted_count := 0,
            processed_md5_count := 1, log := [LogEvent.invalidList "m"] } :=
  ⟨Or.inr rfl,
    prune_invalid_entry_skipped rfNone
      { disk := ["x.jpg"], kept_files_data := [], files_deleted_count := 0,
        processed_md5_count := 0, log := [] } "m" (some []) (Or.inr rfl)⟩

/-- `delete_step` never touches the processed-entries counter. -/
theorem delete_step_processed (rf : String → Bool) (st : PruneState)
    (p : String) :
    (delete_step rf st p).processed_md5_count = st.processed_md5_count := by
  simp only [delete_step]
  split <;> (try split) <;> rfl

/-- The deletion loop never touches the processed-entries counter. -/
theorem dfold_processed (rf : String → Bool) (l : List String) :
    ∀ st : PruneState,
      (List.foldl (delete_step rf) st l).processed_md5_count
        = st.processed_md5_count := by
  induction l with
  | nil => intro st; rfl
  | cons p rest ih => intro st; rw [List.foldl_cons, ih, delete_step_processed]

/-- Every entry advances the processed-entries counter by exactly one. -/
theorem entry_step_processed (rf : String → Bool) (st : PruneState)
    (e : String × Option (List String)) :
    (entry_step rf st e).processed_md5_count = st.processed_md5_count + 1 := by
  obtain ⟨m, v⟩ := e
  match v with
  | none => rfl
  | some [] => rfl
  | some (a :: rest) => simp [entry_step, dfold_processed]

/-- The run processes every entry, whatever happens on disk. -/
theorem efold_processed (rf : String → Bool)
    (entries : List (String × Option (List String))) :
    ∀ st : PruneState,
      (List.foldl (entry_step rf) st entries).processed_md5_count
        = st.processed_md5_count + entries.length := by
  induction entries with
  | nil => intro st; rfl
  | cons e rest ih =>
    intro st
    rw [List.foldl_cons, ih, entry_step_processed]
    simp
    omega

/-- C8: no per-path deletion outcome aborts the batch: the run always
processes every entry of the report; a path absent from disk only logs a
missing-file warning (state otherwise unchanged), and a path whose removal
raises an OS error only logs that failure (state otherwise unchanged) —
processing continues in both cases. -/
theorem prune_deletion_never_aborts (rf : String → Bool) (disk0 : List String)
    (entries : List (String × Option (List String)))
    (st : PruneState) (p : String) :
    (prune_run rf disk0 entries).processed_md5_count = entries.length
      ∧ (p ∉ st.disk →
          delete_step rf st p
            = { st with log := st.log ++ [LogEvent.missingFile p] })
      ∧ (p ∈ st.disk → rf p = true →
          delete_step rf st p
            = { st with log := st.log ++ [LogEvent.osError p] }) := by
  refine ⟨?_, ?_, ?_⟩
  · rw [prune_run, efold_processed]
    simp
  · intro h
    simp [delete_step, h]
  · intro h1 h2
    simp [delete_step, h1, h2]

/-- C8 witness: a report with one valid entry (whose second path is missing)
and one malformed entry is fully processed; a missing path and a failing
deletion each only add their log event. -/
theorem prune_deletion_never_aborts_witness :
    (prune_run rfLocked ["a.jpg", "locked.jpg"] entriesEx).processed_md5_count
        = entriesEx.length
      ∧ delete_step rfLocked stLocked "gone.jpg"
        = { stLocked with log := stLocked.log ++ [LogEvent.missingFile "gone.jpg"] }
      ∧ delete_step rfLocked stLocked "locked.jpg"
        = { stLocked with log := stLocked.log ++ [LogEvent.osError "locked.jpg"] } := by
  have h1 := prune_deletion_never_aborts rfLocked ["a.jpg", "locked.jpg"]
    entriesEx stLocked "gone.jpg"
  have h2 := prune_deletion_never_aborts rfLocked ["a.jpg", "locked.jpg"]
    entriesEx stLocked "locked.jpg"
  exact ⟨h1.1, h1.2.1 (by decide), h2.2.2 (by decide) (by decide)⟩

/-- Membership in the deletion candidates of a cons of entries. -/
theorem mem_tailPaths_cons (p : String) (e : String × Option (List String))
    (rest : List (String × Option (List String))) :
    p ∈ tailPaths (e :: rest) ↔ p ∈ tailOf e ∨ p ∈ tailPaths rest := by
  simp [tailPaths]

/-- One deletion attempt can only shrink the disk. -/
theorem delete_step_disk_subset (rf : String → Bool) (st : PruneState)
    (p q : String) (h : q ∈ (delete_step rf st p).disk) : q ∈ st.disk := by
  simp only [delete_step] at h
  split at h
  · split at h
    · exact h
    · exact (List.mem_filter.mp h).1
  · exact h

/-- The deletion loop can only shrink the disk. -/
theorem dfold_disk_subset (rf : String → Bool) (l : List String) :
    ∀ (st : PruneState) (q : String),
      q ∈ (List.foldl (delete_step rf) st l).disk → q ∈ st.disk := by
  induction l with
  | nil => intro st q h; exact h
  | cons p rest ih =>
    intro st q h
    exact delete_step_disk_subset rf st p q (ih _ q h)

/-- One entry can only shrink the disk. -/
theorem entry_step_disk_subset (rf : String → Bool) (st : PruneState)
    (e : String × Option (List String)) (q : String)
    (h : q ∈ (entry_step rf st e).disk) : q ∈ st.disk := by
  obtain ⟨m, v⟩ := e
  rcases v with _ | l
  · exact h
  · rcases l with _ | ⟨a, rest⟩
    · exact h
    · simp only [entry_step] at h
      exact dfold_disk_subset rf rest
        { disk := st.disk, kept_files_data := dictSet st.kept_files_data m [a],
          files_deleted_count := st.files_deleted_count,
          processed_md5_count := st.processed_md5_count + 1,
          log := st.log } q h

/-- The whole run can only shrink the disk. -/
theorem efold_disk_subset (rf : String → Bool)
    (entries : List (String × Option (List String))) :
    ∀ (st : PruneState) (q : String),
      q ∈ (List.foldl (entry_step rf) st entries).disk → q ∈ st.disk := by
  induction entries with
  | nil => intro st q h; exact h
  | cons e rest ih =>
    intro st q h
    exact entry_step_disk_subset rf st e q (ih _ q h)

/-- After attempting to delete `p` (and no OS error), `p` is gone. -/
theorem delete_step_removes (rf : String → Bool) (st : PruneState) (p : String)
    (hrf : rf p = false) : p ∉ (delete_step rf st p).disk := by
  by_cases h : p ∈ st.disk
  · simp [delete_step, h, hrf, List.mem_filter]
  · simp [delete_step, h]

/-- A deletion-loop path with no OS error is absent afterwards. -/
theorem dfold_removes (rf : String → Bool) (l : List String) :
    ∀ (st : PruneState) (p : String), p ∈ l → rf p = false →
      p ∉ (List.foldl (delete_step rf) st l).disk := by
  induction l with
  | nil => intro st p h _; exact absurd h (List.not_mem_nil p)
  | cons a rest ih =>
    intro st p hp hrf
    rw [List.foldl_cons]
    rcases List.mem_cons.mp hp with h | h
    · subst h
      intro hcon
      exact delete_step_removes rf st p hrf (dfold_disk_subset rf rest _ p hcon)
    · exact ih _ p h hrf

/-- A deletion candidate of an entry with no OS error is absent afterwards. -/
theorem entry_step_removes (rf : String → Bool) (st : PruneState)
    (e : String × Option (List String)) (p : String)
    (hp : p ∈ tailOf e) (hrf : rf p = false) :
    p ∉ (entry_step rf st e).disk := by
  obtain ⟨m, v⟩ := e
  rcases v with _ | l
  · exact absurd hp (List.not_mem_nil p)
  · rcases l with _ | ⟨a, rest⟩
    · exact absurd hp (List.not_mem_nil p)
    · exact dfold_removes rf rest _ p hp hrf

/-- Any deletion candidate of the report with no OS error is absent from the
disk after the run. -/
theorem efold_removes (rf : String → Bool)
    (entries : List (String × Option (List String))) :
    ∀ (st : PruneState) (p : String), p ∈ tailPaths entries → rf p = false →
      p ∉ (List.foldl (entry_step rf) st entries).disk := by
  induction entries with
  | nil => intro st p h _; exact absurd h (by simp [tailPaths])
  | cons e rest ih =>
    intro st p hp hrf
    rw [List.foldl_cons]
    rcases (mem_tailPaths_cons p e rest).mp hp with h | h
    · intro hcon
      exact entry_step_removes rf st e p h hrf
        (efold_disk_subset rf rest _ p hcon)
    · exact ih _ p h hrf

/-- If every path of the deletion loop is either missing or fails with an OS
error, the loop leaves the disk and the deletion count unchanged. -/
theorem dfold_noop (rf : String → Bool) (l : List String) :
    ∀ st : PruneState, (∀ p ∈ l, p ∈ st.disk → rf p = true) →
      (List.foldl (delete_step rf) st l).disk = st.disk
        ∧ (List.foldl (delete_step rf) st l).files_deleted_count
          = st.files_deleted_count := by
  induction l with
  | nil => intro st _; exact ⟨rfl, rfl⟩
  | cons a rest ih =>
    intro st hl
    rw [List.foldl_cons]
    have hst : (delete_step rf st a).disk = st.disk
        ∧ (delete_step rf st a).files_deleted_count
          = st.files_deleted_count := by
      by_cases hmem : a ∈ st.disk
      · have hrf := hl a (by simp) hmem
        simp [delete_step, hmem, hrf]
      · simp [delete_step, hmem]
    have hrest := ih (delete_step rf st a) (fun p hp hdisk =>
      hl p (by simp [hp]) (hst.1 ▸ hdisk))
    exact ⟨hrest.1.trans hst.1, hrest.2.trans hst.2⟩

/-- An entry all of whose deletion candidates are missing or OS-failing
leaves the disk and the deletion count unchanged. -/
theorem entry_step_noop (rf : String → Bool) (st : PruneState)
    (e : String × Option (List String))
    (h : ∀ p ∈ tailOf e, p ∈ st.disk → rf p = true) :
    (entry_step rf st e).disk = st.disk
      ∧ (entry_step rf st e).files_deleted_count = st.files_deleted_count := by
  obtain ⟨m, v⟩ := e
  rcases v with _ | l
  · exact ⟨rfl, rfl⟩
  · rcases l with _ | ⟨a, rest⟩
    · exact ⟨rfl, rfl⟩
    · exact dfold_noop rf rest _ (fun p hp hd => h p hp hd)

/-- A run all of whose deletion candidates are missing or OS-failing leaves
the disk unchanged and deletes nothing. -/
theorem efold_noop (rf : String → Bool)
    (entries : List (String × Option (List String))) :
    ∀ st : PruneState, (∀ p ∈ tailPaths entries, p ∈ st.disk → rf p = true) →
      (List.foldl (entry_step rf) st entries).disk = st.disk
        ∧ (List.foldl (entry_step rf) st entries).files_deleted_count
          = st.files_deleted_count := by
  induction entries with
  | nil => intro st _; exact ⟨rfl, rfl⟩
  | cons e rest ih =>
    intro st h
    rw [List.foldl_cons]
    have he := entry_step_noop rf st e (fun p hp hd =>
      h p ((mem_tailPaths_cons p e rest).mpr (Or.inl hp)) hd)
    have hrest := ih (entry_step rf st e) (fun p hp hd =>
      h p ((mem_tailPaths_cons p e rest).mpr (Or.inr hp)) (he.1 ▸ hd))
    exact ⟨hrest.1.trans he.1, hrest.2.trans he.2⟩

/-- C9: rerunning the prune on the same original report, starting from the
disk the first run left behind, is idempotent: the kept mapping is the same,
the second run deletes zero additional files, and the disk is unchanged
(every deletable candidate is already missing, which only warns). -/
theorem prune_idempotent (rf : String → Bool) (disk0 : List String)
    (entries : List (String × Option (List String))) :
    (prune_run rf (prune_run rf disk0 entries).disk entries).kept_files_data
        = (prune_run rf disk0 entries).kept_files_data
      ∧ (prune_run rf (prune_run rf disk0 entries).disk entries).files_deleted_count
        = 0
      ∧ (prune_run rf (prune_run rf disk0 entries).disk entries).disk
        = (prune_run rf disk0 entries).disk := by
  have hall : ∀ p ∈ tailPaths entries,
      p ∈ (prune_run rf disk0 entries).disk → rf p = true := by
    intro p hp hd
    cases hrf : rf p with
    | true => rfl
    | false =>
      exact absurd hd (efold_removes rf entries _ p hp hrf)
  have hnoop := efold_noop rf entries
    { disk := (prune_run rf disk0 entries).disk, kept_files_data := [],
      files_deleted_count := 0, processed_md5_count := 0, log := [] } hall
  refine ⟨?_, ?_, ?_⟩
  · rw [prune_run, prune_run, efold_kept, efold_kept]
  · exact hnoop.2
  · exact hnoop.1

/-- Paths never in any entry's tail survive one deletion attempt on another
path. -/
theorem delete_step_preserve (rf : String → Bool) (st : PruneState)
    (a p : String) (hne : p ≠ a) (hp : p ∈ st.disk) :
    p ∈ (delete_step rf st a).disk := by
  simp only [delete_step]
  split
  · split
    · exact hp
    · simp [List.mem_filter, hp, hne]
  · exact hp

/-- A path not in the deletion loop's list survives the loop. -/
theorem dfold_preserve (rf : String → Bool) (l : List String) :
    ∀ (st : PruneState) (p : String), p ∉ l → p ∈ st.disk →
      p ∈ (List.foldl (delete_step rf) st l).disk := by
  induction l with
  | nil => intro st p _ hp; exact hp
  | cons a rest ih =>
    intro st p hpl hp
    rw [List.foldl_cons]
    have hne : p ≠ a := fun h => hpl (by simp [h])
    exact ih _ p (fun h => hpl (by simp [h]))
      (delete_step_preserve rf st a p hne hp)

/-- A path not among an entry's deletion candidates survives the entry. -/
theorem entry_step_preserve (rf : String → Bool) (st : PruneState)
    (e : String × Option (List String)) (p : String)
    (hp : p ∉ tailOf e) (hd : p ∈ st.disk) :
    p ∈ (entry_step rf st e).disk := by
  obtain ⟨m, v⟩ := e
  rcases v with _ | l
  · exact hd
  · rcases l with _ | ⟨a, rest⟩
    · exact hd
    · exact dfold_preserve rf rest _ p hp hd

/-- A path never passed to deletion survives the whole run. -/
theorem efold_preserve (rf : String → Bool)
    (entries : List (String × Option (List String))) :
    ∀ (st : PruneState) (p : String), p ∉ tailPaths entries → p ∈ st.disk →
      p ∈ (List.foldl (entry_step rf) st entries).disk := by
  induction entries with
  | nil => intro st p _ hd; exact hd
  | cons e rest ih =>
    intro st p hp hd
    rw [List.foldl_cons]
    have h1 : p ∉ tailOf e := fun h =>
      hp ((mem_tailPaths_cons p e rest).mpr (Or.inl h))
    have h2 : p ∉ tailPaths rest := fun h =>
      hp ((mem_tailPaths_cons p e rest).mpr (Or.inr h))
    exact ih _ p h2 (entry_step_preserve rf st e p h1 hd)

/-- C10: every path the prune run removes from disk is a tail element
(`file_list[1:]`, by position) of some valid entry; a path occurring only at
index 0 of its entry and nowhere later is never removed; but when the value
of `paths[0]` also occurs at a later position of the same list, that later
occurrence is passed to deletion and the retained file itself is removed
from disk. -/
theorem prune_deletes_only_tail_paths (rf : String → Bool)
    (disk0 : List String) (entries : List (String × Option (List String)))
    (p m : String) (rest : List String) :
    (p ∉ tailPaths entries → p ∈ disk0 →
        p ∈ (prune_run rf disk0 entries).disk)
      ∧ (p ∈ disk0 → p ∉ (prune_run rf disk0 entries).disk →
          p ∈ tailPaths entries)
      ∧ (p ∈ rest → rf p = false →
          p ∉ (prune_run rf disk0 [(m, some (p :: rest))]).disk) := by
  refine ⟨?_, ?_, ?_⟩
  · intro hp hd
    exact efold_preserve rf entries _ p hp hd
  · intro hd hgone
    by_contra hp
    exact hgone (efold_preserve rf entries _ p hp hd)
  · intro hp hrf
    apply efold_removes rf [(m, some (p :: rest))] _ p
    · simpa [tailPaths, tailOf] using hp
    · exact hrf

/-- C10 witness: `dup.jpg` is not a tail path of the first report, so it
survives that prune; a path removed by a prune is always a tail path; and an
entry `["dup.jpg", "dup.jpg"]` deletes the retained path itself. -/
theorem prune_deletes_only_tail_paths_witness :
    "dup.jpg" ∈ (prune_run rfNone ["dup.jpg", "keep.jpg"]
        [("e", some ["x.jpg", "t.jpg"])]).disk
      ∧ "dup.jpg" ∈ tailPaths [("e2", some ["x.jpg", "dup.jpg"])]
      ∧ "dup.jpg" ∉ (prune_run rfNone ["dup.jpg", "keep.jpg"]
          [("h", some ["dup.jpg", "dup.jpg"])]).disk := by
  have h1 := prune_deletes_only_tail_paths rfNone ["dup.jpg", "keep.jpg"]
    [("e", some ["x.jpg", "t.jpg"])] "dup.jpg" "h" ["dup.jpg"]
  have h2 := prune_deletes_only_tail_paths rfNone ["dup.jpg", "keep.jpg"]
    [("e2", some ["x.jpg", "dup.jpg"])] "dup.jpg" "h" ["dup.jpg"]
  exact ⟨h1.1 (by decide) (by decide), h2.2.1 (by decide) (by decide),
    h1.2.2 (by decide) (by decide)⟩

end Tools
